import Mathlib

/-!
Verification development for the dravis-flow voice-transcription core.

The definitions below are a shallow embedding of the Rust sources under
`src-tauri/src/`:

* `hotkey.rs` — the pure gesture resolver (`resolve_shortcut_action`);
* `lib.rs` — the session state machine (`handle_shortcut_event`,
  `start_recording_inner`, `stop_recording_inner`, `cancel_recording_inner`,
  `reset_to_idle`), modelled as a labelled transition system over the fields
  of `InnerState` that the transitions read and write;
* `audio.rs` — `resample_linear` and `trim_silence`, with `f32`/`f64`
  arithmetic rendered as exact rational arithmetic (machine floats are
  modelled by `ℚ`; the square root in the RMS silence test is eliminated
  by the equivalence `sqrt (x) < t ↔ 0 ≤ t ∧ x < t ^ 2` for `x ≥ 0`);
* `formatter.rs` — the whole text-normalization pipeline, with Rust strings
  modelled as `List Char` (byte indices returned by `rfind` fall on char
  boundaries in every slice the source takes, so char-position slicing is
  observationally equivalent), and the Unicode case/alphabet predicates of
  the standard library modelled by their ASCII restrictions, which agree
  with Rust on every character class the pipeline distinguishes.

Loops whose index advances by a data-dependent stride are embedded with an
explicit fuel argument so that every definition is executable by kernel
reduction; each call site passes fuel that provably dominates the number of
iterations, so the fueled functions agree with the source loops on all
inputs.
-/

set_option maxRecDepth 4000

namespace DravisFlow

/-! ## hotkey.rs -/

/-- Threshold (ms) separating a quick tap (toggle mode) from a long hold
(push-to-talk), `HOLD_THRESHOLD_MS` in `hotkey.rs`. -/
def HOLD_THRESHOLD_MS : Nat := 300

/-- Action the shortcut handler dispatches after resolving input state. -/
inductive ShortcutAction
  | start
  | stop
  | toggleActivated
deriving DecidableEq

/-- Embedding of `hotkey.rs::resolve_shortcut_action`.  `held_ms` is the
elapsed milliseconds since the key was pressed (`none` = unknown, treated as
a long hold); `u128` is modelled by `Nat`. -/
def resolve_shortcut_action (pressed is_idle is_recording toggle_shortcut_held
    toggle_active : Bool) (held_ms : Option Nat) : Option ShortcutAction :=
  if pressed then
    if toggle_shortcut_held then
      none
    else if toggle_active then
      some .stop
    else if is_idle then
      some .start
    else
      none
  else
    if is_recording && !toggle_active then
      let ms := held_ms.getD (HOLD_THRESHOLD_MS + 1)
      if ms ≥ HOLD_THRESHOLD_MS then some .stop else some .toggleActivated
    else
      none

/-- The gesture rules exactly as the specification words them (press: held →
none, toggle-active → stop, idle → start, otherwise none; release while
recording and not in toggle mode: unknown hold → stop, hold below 300 ms →
toggle-activated, hold at or above 300 ms → stop; every other release →
none).  Written from the claim text, to be compared with the source
embedding. -/
def resolveSpec (pressed is_idle is_recording toggle_shortcut_held
    toggle_active : Bool) (held_ms : Option Nat) : Option ShortcutAction :=
  if pressed then
    if toggle_shortcut_held = true then none
    else if toggle_active = true then some .stop
    else if is_idle = true then some .start
    else none
  else
    if is_recording = true ∧ toggle_active = false then
      match held_ms with
      | none => some .stop
      | some ms => if ms < 300 then some .toggleActivated else some .stop
    else none

/-! ## lib.rs — session state machine

The fields of `InnerState` that the transitions read or write are `status`,
`toggle_shortcut_held`, `press_instant` and `toggle_active`.  `press_instant`
is modelled by its presence (`press_some`); the wall-clock duration measured
from it at release time is a nondeterministic parameter of the release
transition (when `press_some` is false the source substitutes
`HOLD_THRESHOLD_MS + 1`). -/

/-- `AppStatus` from `lib.rs`. -/
inductive AppStatus
  | idle
  | recording
  | processing
  | error
deriving DecidableEq, Fintype

/-- The session-relevant fields of `lib.rs::InnerState`. -/
structure InnerState where
  status : AppStatus
  toggle_shortcut_held : Bool
  press_some : Bool
  toggle_active : Bool
deriving DecidableEq, Fintype

/-- `InnerState::reset_to_idle`. -/
def reset_to_idle (s : InnerState) : InnerState :=
  { s with status := .idle, toggle_active := false, press_some := false }

/-- The stale-toggle cleanup at the top of `handle_shortcut_event`: if
recording ended externally while toggle mode was active, clear the stale
flags before evaluating the gesture. -/
def stale_cleanup (s : InnerState) : InnerState :=
  if s.toggle_active = true ∧ s.status ≠ .recording then
    { s with toggle_active := false, press_some := false }
  else s

/-- State mutation performed by `handle_shortcut_event` on a `Pressed`
event (the dispatched action itself is resolved by the same branches; only
the state effect matters for the invariant claims). -/
def handle_press (s : InnerState) : InnerState :=
  let s := stale_cleanup s
  if s.toggle_shortcut_held = true then
    s
  else
    let s := { s with toggle_shortcut_held := true }
    if s.toggle_active = true then
      { s with toggle_active := false }
    else if s.status = .idle then
      { s with press_some := true }
    else
      s

/-- State mutation performed by `handle_shortcut_event` on a `Released`
event.  `elapsed_ms` is the wall-clock hold duration measured from
`press_instant` when it is set. -/
def handle_release (s : InnerState) (elapsed_ms : Nat) : InnerState :=
  let s := stale_cleanup s
  let s := { s with toggle_shortcut_held := false }
  if s.status = .recording ∧ s.toggle_active = false then
    let held_ms := if s.press_some then elapsed_ms else HOLD_THRESHOLD_MS + 1
    if held_ms ≥ HOLD_THRESHOLD_MS then
      s
    else
      { s with toggle_active := true }
  else
    s

/-- One atomic lock-holding step of the session controller.  Each
constructor is one `with_state`/lock block of `lib.rs`:

* `press`/`release` — the gesture handler (`handle_shortcut_event`);
* `start_begin` — `start_recording_inner` setting `Recording` from `Idle`;
* `start_model_missing` — `start_recording_inner` resetting to idle when
  the model file is absent;
* `stop_begin` — the first block of `stop_recording_inner`, which moves
  `Recording` to `Processing` (and is also reachable from the external
  `stop_recording` command);
* `stop_reset` — any of the later `reset_to_idle` blocks of
  `stop_recording_inner` (empty audio, short audio, empty transcript,
  success);
* `cancel` — `cancel_recording_inner` while recording;
* `error_reset` — the shortcut pipeline error handler, which resets to idle
  and clears `toggle_shortcut_held`;
* `set_mode` — the `set_recording_mode` command clearing
  `toggle_shortcut_held`. -/
inductive SessionStep : InnerState → InnerState → Prop
  | press (s : InnerState) : SessionStep s (handle_press s)
  | release (s : InnerState) (elapsed_ms : Nat) :
      SessionStep s (handle_release s elapsed_ms)
  | start_begin (s : InnerState) (h : s.status = .idle) :
      SessionStep s { s with status := .recording }
  | start_model_missing (s : InnerState) (h : s.status = .idle) :
      SessionStep s (reset_to_idle s)
  | stop_begin (s : InnerState) (h : s.status = .recording) :
      SessionStep s { s with status := .processing }
  | stop_reset (s : InnerState) : SessionStep s (reset_to_idle s)
  | cancel (s : InnerState) (h : s.status = .recording) :
      SessionStep s (reset_to_idle s)
  | error_reset (s : InnerState) :
      SessionStep s { reset_to_idle s with toggle_shortcut_held := false }
  | set_mode (s : InnerState) :
      SessionStep s { s with toggle_shortcut_held := false }

/-- The session states reachable from the initial state built by
`AppState::new` (`Idle`, all flags cleared). -/
inductive Reachable : InnerState → Prop
  | init : Reachable ⟨.idle, false, false, false⟩
  | step {s t : InnerState} : Reachable s → SessionStep s t → Reachable t

/-! ## audio.rs — resampling and silence trimming

Samples (`f32`) are modelled by `ℚ` and the `f64` interpolation arithmetic
by exact rational arithmetic.  The two rate ratios the claims exercise
(equal rates and exact small integer ratios) are computed exactly by `f64`
as well, so the embedding agrees with the source there; the `as usize`
truncation of the nonnegative output length is `Nat.floor`. -/

/-- Embedding of `audio.rs::resample_linear`. -/
def resample_linear (input : List ℚ) (in_rate out_rate : Nat) : List ℚ :=
  if input = [] ∨ in_rate = out_rate then
    input
  else
    let ratio : ℚ := (in_rate : ℚ) / (out_rate : ℚ)
    let out_len : Nat := ⌊(input.length : ℚ) / ratio⌋₊
    (List.range out_len).map fun (i : Nat) =>
      let src_pos : ℚ := (i : ℚ) * ratio
      let idx : Nat := ⌊src_pos⌋₊
      let frac : ℚ := src_pos - (idx : ℚ)
      let a := input.getD idx 0
      let b := input.getD (idx + 1) a
      a + (b - a) * frac

/-- Window size of the silence trimmer (`WINDOW` in `trim_silence`). -/
def WINDOW : Nat := 480

/-- Tail padding kept after the last voiced window
(`TAIL_PADDING = 16_000 / 2` in `trim_silence`). -/
def TAIL_PADDING : Nat := 16000 / 2

/-- Sum of squares of a sample window. -/
def sum_sq (w : List ℚ) : ℚ := (w.map fun s => s * s).sum

/-- The silence test of `trim_silence`: `sqrt (sum_sq / len) < threshold`.
In exact arithmetic, for the nonnegative mean square `m` this holds iff
`0 ≤ threshold ∧ m < threshold ^ 2`, which is how the square root is
eliminated here. -/
def is_silent (w : List ℚ) (threshold : ℚ) : Bool :=
  decide (0 ≤ threshold ∧ sum_sq w / (w.length : ℚ) < threshold ^ 2)

/-- Fueled splitting into `WINDOW`-sample chunks (`samples.chunks(WINDOW)`).
The fuel only needs to dominate the chunk count, which `l.length` does. -/
def chunks_go (fuel : Nat) (l : List ℚ) : List (List ℚ) :=
  match fuel with
  | 0 => []
  | fuel + 1 =>
    match l with
    | [] => []
    | _ :: _ => l.take WINDOW :: chunks_go fuel (l.drop WINDOW)

/-- `samples.chunks(WINDOW)` as a total function. -/
def chunks (l : List ℚ) : List (List ℚ) := chunks_go l.length l

/-- `Iterator::position`: index of the first element satisfying `p`. -/
def position (p : List ℚ → Bool) : List (List ℚ) → Option Nat
  | [] => none
  | w :: ws => if p w then some 0 else (position p ws).map (· + 1)

/-- `Iterator::rposition` on a chunk list: index of the last element
satisfying `p`. -/
def rposition (p : List ℚ → Bool) (ws : List (List ℚ)) : Option Nat :=
  (position p ws.reverse).map fun k => ws.length - 1 - k

/-- Embedding of `audio.rs::trim_silence`. -/
def trim_silence (samples : List ℚ) (threshold : ℚ) : List ℚ :=
  let not_silent : List ℚ → Bool := fun w => !(is_silent w threshold)
  match position not_silent (chunks samples) with
  | none => []
  | some i =>
    let start := i * WINDOW
    let stop :=
      match rposition not_silent (chunks samples) with
      | some j => min ((j + 1) * WINDOW + TAIL_PADDING) samples.length
      | none => samples.length
    if start ≥ stop then [] else (samples.take stop).drop start

/-! ## formatter.rs — text normalization

Rust strings are modelled as `List Char`.  The standard library predicates
used by the source (`char::is_whitespace`, `char::is_alphanumeric`,
`char::is_alphabetic`, `str::to_lowercase`, `char::to_uppercase`,
`eq_ignore_ascii_case`) are modelled by the corresponding ASCII predicates
and case maps of `Char` (`eq_ignore_ascii_case` is ASCII-only in Rust as
well; the remaining ones agree with Rust on the ASCII text and punctuation
the pipeline distinguishes). -/

/-- Character model of a Rust `&str` / `String`. -/
abbrev Str := List Char

/-- The trailing punctuation set `, . ! ?` stripped by several passes. -/
def isTrailPunct (c : Char) : Bool :=
  c = ',' ∨ c = '.' ∨ c = '!' ∨ c = '?'

/-- Rust `str::trim_end_matches` with a character predicate. -/
def trimEndMatches (p : Char → Bool) (w : Str) : Str :=
  (w.reverse.dropWhile p).reverse

/-- The suffix removed by `trim_end_matches` — `&word[stripped.len()..]`. -/
def trailingOf (w : Str) : Str :=
  (w.reverse.takeWhile isTrailPunct).reverse

/-- Rust `str::trim`. -/
def trim (s : Str) : Str :=
  ((s.dropWhile Char.isWhitespace).reverse.dropWhile Char.isWhitespace).reverse

/-- Accumulator-passing worker for `str::split_whitespace`; `racc` holds the
current word reversed. -/
def split_whitespace_go (racc : Str) : Str → List Str
  | [] => if racc = [] then [] else [racc.reverse]
  | c :: cs =>
    if c.isWhitespace then
      if racc = [] then split_whitespace_go [] cs
      else racc.reverse :: split_whitespace_go [] cs
    else
      split_whitespace_go (c :: racc) cs

/-- Rust `str::split_whitespace` (empty fragments are skipped). -/
def split_whitespace (s : Str) : List Str := split_whitespace_go [] s

/-- `Vec::join(" ")`: concatenation with a single-space separator between
consecutive elements. -/
def join_space : List Str → Str
  | [] => []
  | [w] => w
  | w :: ws => w ++ ' ' :: join_space ws

/-- `formatter.rs::collapse_whitespace`. -/
def collapse_whitespace (s : Str) : Str := join_space (split_whitespace s)

/-- `formatter.rs::token_core`: strip leading/trailing characters that are
neither alphanumeric nor an apostrophe, then lowercase. -/
def token_core (t : Str) : Str :=
  let strip : Char → Bool := fun c => !(c.isAlphanum) && c ≠ '\x27'
  (((t.dropWhile strip).reverse.dropWhile strip).reverse).map Char.toLower

/-- `formatter.rs::token_has_pause`. -/
def token_has_pause (t : Str) : Bool :=
  match t.getLast? with
  | some c =>
    c = ',' ∨ c = ';' ∨ c = ':' ∨ c = '.' ∨ c = '!' ∨ c = '?' ∨
      c = '—' ∨ c = '–'
  | none => false

/-- `formatter.rs::is_punctuation_only`. -/
def is_punctuation_only (t : Str) : Bool := !(t.any Char.isAlphanum)

/-- Indices at which `pat` occurs in `s` (char positions). -/
def occurrences (pat s : Str) : List Nat :=
  (List.range (s.length + 1)).filter fun i => pat.isPrefixOf (s.drop i)

/-- Rust `str::rfind` for a pattern string: position of the last
occurrence. -/
def rfindPos (s pat : Str) : Option Nat := (occurrences pat s).getLast?

/-- Rust `str::find` for a pattern string: position of the first
occurrence. -/
def findPos (s pat : Str) : Option Nat := (occurrences pat s).head?

/-- Rust `str::replacen(pat, rep, 1)`: replace the first occurrence. -/
def replacen1 (s pat rep : Str) : Str :=
  match findPos s pat with
  | none => s
  | some i => s.take i ++ rep ++ s.drop (i + pat.length)

/-- Fueled worker for Rust `str::replace` (all non-overlapping occurrences,
left to right).  `s.length` iterations always suffice for a non-empty
pattern. -/
def replace_all_go (fuel : Nat) (pat rep : Str) : Str → Str
  | [] => []
  | c :: cs =>
    match fuel with
    | 0 => c :: cs
    | fuel + 1 =>
      if pat ≠ [] ∧ pat.isPrefixOf (c :: cs) then
        rep ++ replace_all_go fuel pat rep ((c :: cs).drop pat.length)
      else
        c :: replace_all_go fuel pat rep cs

/-- Rust `str::replace`. -/
def replace_all (s pat rep : Str) : Str := replace_all_go s.length pat rep s

/-- The dash characters stripped from the head of the `after` half in
`cleanup_false_start`. -/
def isDash (c : Char) : Bool := c = '-' ∨ c = '—' ∨ c = '–'

/-- The restart-keyword test of `cleanup_false_start` on the lowercased
`after` half. -/
def restart_keyword (lower_after : Str) : Bool :=
  "actually".data.isPrefixOf lower_after ||
  "let me".data.isPrefixOf lower_after ||
  "sorry".data.isPrefixOf lower_after ||
  "i mean".data.isPrefixOf lower_after ||
  "wait".data.isPrefixOf lower_after ||
  "no ".data.isPrefixOf lower_after

/-- One iteration of the marker loop in `cleanup_false_start`: split at the
last occurrence of `marker`, `none` meaning the loop continues with the
next marker. -/
def false_start_split (input marker : Str) : Option Str :=
  match rfindPos input marker with
  | none => none
  | some idx =>
    let before := trim (input.take idx)
    let after := trim ((input.drop (idx + marker.length)).dropWhile isDash)
    if before = [] ∨ after = [] then none
    else
      let lower_after := after.map Char.toLower
      if restart_keyword lower_after ∨ (split_whitespace before).length ≤ 8 then
        some after
      else
        none

/-- The `for marker in [em-dash, en-dash, double-hyphen]` loop of
`cleanup_false_start`. -/
def cleanup_false_start_go (input : Str) : List Str → Str
  | [] => input
  | m :: ms =>
    match false_start_split input m with
    | some after => after
    | none => cleanup_false_start_go input ms

/-- Embedding of `formatter.rs::cleanup_false_start`. -/
def cleanup_false_start (input : Str) : Str :=
  cleanup_false_start_go input ["—".data, "–".data, "--".data]

/-- Fueled accumulator-passing worker for `formatter.rs::remove_fillers`;
`racc` holds the emitted tokens reversed, so `racc.head?` is `out.last()`.
Every iteration consumes at least one input token, so fuel `ts.length`
suffices. -/
def remove_fillers_go (fuel : Nat) (racc ts : List Str) : List Str :=
  match fuel with
  | 0 => racc.reverse ++ ts
  | fuel + 1 =>
    match ts with
    | [] => racc.reverse
    | t :: rest =>
      if is_punctuation_only t then
        remove_fillers_go fuel racc rest
      else
        let current := token_core t
        let prev_has_pause :=
          match racc.head? with
          | some p => token_has_pause p
          | none => false
        if current = "um".data ∨ current = "uh".data ∨ current = "hmm".data then
          remove_fillers_go fuel racc rest
        else
          match rest with
          | n :: rest2 =>
            if current = "uh".data ∧ token_core n = "huh".data then
              remove_fillers_go fuel racc rest2
            else if current = "you".data ∧ token_core n = "know".data ∧
                (prev_has_pause = true ∨ token_has_pause n = true) then
              remove_fillers_go fuel racc rest2
            else if current = "i".data ∧ token_core n = "mean".data ∧
                (prev_has_pause = true ∨ token_has_pause n = true) then
              remove_fillers_go fuel racc rest2
            else if current = "like".data ∧
                (prev_has_pause = true ∨ token_has_pause t = true) then
              remove_fillers_go fuel racc rest
            else
              remove_fillers_go fuel (t :: racc) rest
          | [] =>
            if current = "like".data ∧
                (prev_has_pause = true ∨ token_has_pause t = true) then
              remove_fillers_go fuel racc rest
            else
              remove_fillers_go fuel (t :: racc) rest

/-- Embedding of `formatter.rs::remove_fillers`. -/
def remove_fillers (tokens : List Str) : List Str :=
  remove_fillers_go tokens.length [] tokens

/-- `formatter.rs::repeated_phrase_at` on the core list. -/
def repeated_phrase_at (cores : List Str) (start plen : Nat) : Bool :=
  if plen = 0 ∨ start + plen * 2 > cores.length then false
  else
    let left := (cores.drop start).take plen
    let right := (cores.drop (start + plen)).take plen
    if left.any (· = []) ∨ right.any (· = []) then false
    else left = right

/-- The descending `for phrase_len in (1..=max_phrase_len).rev()` search in
`collapse_repeated_phrases` (`max_phrase_len ≤ 3` always); returns 0 when
no phrase length matches. -/
def find_matched (cores : List Str) (i maxLen : Nat) : Nat :=
  if 3 ≤ maxLen ∧ repeated_phrase_at cores i 3 then 3
  else if 2 ≤ maxLen ∧ repeated_phrase_at cores i 2 then 2
  else if 1 ≤ maxLen ∧ repeated_phrase_at cores i 1 then 1
  else 0

/-- The inner `while` of `collapse_repeated_phrases` skipping consecutive
repeats of `phrase`; returns the index after the last repeat.  Fuel
`cores.length` always suffices since `plen ≥ 1`. -/
def skip_reps (fuel : Nat) (cores : List Str) (plen : Nat) (phrase : List Str)
    (i : Nat) : Nat :=
  match fuel with
  | 0 => i
  | fuel + 1 =>
    if i + plen ≤ cores.length ∧ (cores.drop i).take plen = phrase then
      skip_reps fuel cores plen phrase (i + plen)
    else
      i

/-- Fueled main loop of `collapse_repeated_phrases` over the position `i`;
the position strictly increases, so fuel `tokens.length + 1` suffices. -/
def collapse_go (fuel : Nat) (tokens cores : List Str) (i : Nat)
    (racc : List Str) : List Str :=
  match fuel with
  | 0 => racc.reverse
  | fuel + 1 =>
    if i < tokens.length then
      let remaining := tokens.length - i
      let maxLen := min 3 (remaining / 2)
      let matched := find_matched cores i maxLen
      if matched = 0 then
        collapse_go fuel tokens cores (i + 1) (tokens.getD i [] :: racc)
      else
        let phrase := (cores.drop i).take matched
        let copied := (tokens.drop i).take matched
        let j := skip_reps cores.length cores matched phrase (i + matched)
        collapse_go fuel tokens cores j (copied.reverse ++ racc)
    else
      racc.reverse

/-- Embedding of `formatter.rs::collapse_repeated_phrases`. -/
def collapse_repeated_phrases (tokens : List Str) : List Str :=
  if tokens.length < 2 then tokens
  else collapse_go (tokens.length + 1) tokens (tokens.map token_core) 0 []

/-- Embedding of `formatter.rs::remove_stutter_before_contraction`. -/
def remove_stutter_before_contraction : List Str → List Str
  | [] => []
  | [t] => [t]
  | t :: next :: rest =>
    let core := token_core t
    if core.length = 1 ∧ (core ++ ['\x27']).isPrefixOf (token_core next) then
      remove_stutter_before_contraction (next :: rest)
    else
      t :: remove_stutter_before_contraction (next :: rest)

/-- Embedding of `formatter.rs::normalize_spacing`. -/
def normalize_spacing (s : Str) : Str :=
  let pairs : List (Str × Str) :=
    [(" ,".data, ",".data), (" .".data, ".".data), (" !".data, "!".data),
     (" ?".data, "?".data), (" ;".data, ";".data), (" :".data, ":".data)]
  let out := pairs.foldl (fun acc pr => replace_all acc pr.1 pr.2) s
  let cw := collapse_whitespace out
  trim (((cw.dropWhile (· = ',')).reverse.dropWhile (· = ',')).reverse)

/-- Embedding of `formatter.rs::smart_cleanup`. -/
def smart_cleanup (input : Str) : Str :=
  let text := collapse_whitespace (trim input)
  let text := cleanup_false_start text
  let tokens := split_whitespace text
  let tokens := remove_fillers tokens
  let tokens := collapse_repeated_phrases tokens
  let tokens := remove_stutter_before_contraction tokens
  normalize_spacing (join_space tokens)

/-- Per-word transform of `formatter.rs::capitalize_i_forms` (the source
tests the same ASCII-apostrophe prefix twice with identical literals; the
duplicated disjunction is kept). -/
def capitalize_i_word (word : Str) : Str :=
  let lower := word.map Char.toLower
  let strippedLower := trimEndMatches isTrailPunct lower
  let fixed :=
    if strippedLower = "i".data then
      replacen1 (word.map Char.toLower) "i".data "I".data
    else if "i\x27".data.isPrefixOf strippedLower ∨
        "i\x27".data.isPrefixOf strippedLower then
      'I' :: lower.drop 1
    else
      word
  let trailing := (word.reverse.takeWhile isTrailPunct).reverse
  let fixedEndsPunct : Bool :=
    match fixed.getLast? with
    | some c => isTrailPunct c
    | none => false
  if trailing ≠ [] ∧ fixedEndsPunct = false then
    fixed ++ trailing
  else
    fixed

/-- Embedding of `formatter.rs::capitalize_i_forms`. -/
def capitalize_i_forms (text : Str) : Str :=
  join_space ((split_whitespace text).map capitalize_i_word)

/-- Rust `str::eq_ignore_ascii_case`. -/
def eq_ignore_ascii_case (a b : Str) : Bool :=
  a.map Char.toLower = b.map Char.toLower

/-- Per-word transform of `formatter.rs::replace_whole_word_ci`, including
the special case keeping the real word `were` unreplaced. -/
def rww_word (f t word : Str) : Str :=
  let stripped := trimEndMatches isTrailPunct word
  let trailing := word.drop stripped.length
  if eq_ignore_ascii_case stripped f then
    if f = "were".data then word else t ++ trailing
  else
    word

/-- Embedding of `formatter.rs::replace_whole_word_ci`. -/
def replace_whole_word_ci (text f t : Str) : Str :=
  join_space ((split_whitespace text).map (rww_word f t))

/-- The `contraction_fixes` table of `format_text`, in source order. -/
def contraction_fixes : List (Str × Str) :=
  [("dont".data, "don\x27t".data), ("cant".data, "can\x27t".data),
   ("wont".data, "won\x27t".data), ("didnt".data, "didn\x27t".data),
   ("doesnt".data, "doesn\x27t".data), ("isnt".data, "isn\x27t".data),
   ("wasnt".data, "wasn\x27t".data), ("werent".data, "weren\x27t".data),
   ("wouldnt".data, "wouldn\x27t".data), ("couldnt".data, "couldn\x27t".data),
   ("shouldnt".data, "shouldn\x27t".data), ("hasnt".data, "hasn\x27t".data),
   ("havent".data, "haven\x27t".data), ("hadnt".data, "hadn\x27t".data),
   ("youre".data, "you\x27re".data), ("theyre".data, "they\x27re".data),
   ("were".data, "we\x27re".data), ("thats".data, "that\x27s".data),
   ("whats".data, "what\x27s".data), ("heres".data, "here\x27s".data),
   ("theres".data, "there\x27s".data), ("lets".data, "let\x27s".data)]

/-- The contraction-restoration pass of `format_text`: the
`replace_whole_word_ci` fold over `contraction_fixes`. -/
def fix_contractions_text (text : Str) : Str :=
  contraction_fixes.foldl (fun acc pr => replace_whole_word_ci acc pr.1 pr.2) text

/-- The same fold at the level of a single whitespace-free token. -/
def fix_contractions_word (w : Str) : Str :=
  contraction_fixes.foldl (fun acc pr => rww_word pr.1 pr.2 acc) w

/-- Character fold of `formatter.rs::capitalize_sentences`. -/
def capitalize_sentences_go (capNext : Bool) : Str → Str
  | [] => []
  | c :: cs =>
    if capNext ∧ c.isAlpha then
      Char.toUpper c :: capitalize_sentences_go false cs
    else
      c :: capitalize_sentences_go
        (if c = '.' ∨ c = '!' ∨ c = '?' then true else capNext) cs

/-- Embedding of `formatter.rs::capitalize_sentences`. -/
def capitalize_sentences (text : Str) : Str := capitalize_sentences_go true text

/-- Whether a string ends with sentence-ending punctuation
(`ends_with(['.', '!', '?'])`). -/
def ends_with_sentence_end (s : Str) : Bool :=
  match s.getLast? with
  | some c => c = '.' ∨ c = '!' ∨ c = '?'
  | none => false

/-- Embedding of `formatter.rs::format_text`. -/
def format_text (input : Str) : Str :=
  let cleaned := smart_cleanup input
  let text := trim cleaned
  if text = [] then []
  else
    let result := capitalize_i_forms text
    let result := fix_contractions_text result
    let result := capitalize_sentences result
    if ends_with_sentence_end result then result else result ++ ['.']

/-- A user-dictionary replacement rule (`config.rs::ReplacementEntry`); the
Rust field `from` is spelled `from_` because `from` is reserved in Lean. -/
structure ReplacementEntry where
  from_ : Str
  to_ : Str

/-- The per-word body of the `apply_replacements` loop: strip trailing
punctuation, compare against each rule in order (`find?` is the `for` loop
with its first-match `break`), substitute the exact `to` spelling of the rule
plus the original trailing punctuation, or pass the word through. -/
def subst_word (replacements : List ReplacementEntry) (word : Str) : Str :=
  let stripped := trimEndMatches isTrailPunct word
  let trailing := word.drop stripped.length
  match replacements.find? (fun e => eq_ignore_ascii_case stripped e.from_) with
  | some e => e.to_ ++ trailing
  | none => word

/-- Embedding of `formatter.rs::apply_replacements`: whole-word,
case-insensitive match against the rules in order (first match wins),
replacing with the exact `to` spelling plus the original trailing
punctuation; the `out` vector is built by pushes and joined with single
spaces. -/
def apply_replacements (text : Str) (replacements : List ReplacementEntry) : Str :=
  if replacements.isEmpty then text
  else
    let words := split_whitespace text
    let out := words.foldl (fun acc word => acc ++ [subst_word replacements word]) []
    join_space out

/-! ## Theorems -/

/-- The state produced by the stale-toggle cleanup satisfies the strict
invariant: toggle mode implies recording. -/
lemma stale_cleanup_strict (s : InnerState) :
    (stale_cleanup s).toggle_active = true → (stale_cleanup s).status = .recording := by
  revert s
  decide

/-- Every gesture press leaves the session in a state where toggle mode
implies recording. -/
lemma handle_press_strict (s : InnerState) :
    (handle_press s).toggle_active = true → (handle_press s).status = .recording := by
  revert s
  decide

/-- Every gesture release leaves the session in a state where toggle mode
implies recording. -/
lemma handle_release_strict (s : InnerState) (e : Nat) :
    (handle_release s e).toggle_active = true →
      (handle_release s e).status = .recording := by
  have hstale := stale_cleanup_strict s
  simp only [handle_release]
  split
  · next hcond =>
    intro _
    simp only [apply_ite InnerState.status, ite_self]
    exact hcond.1
  · intro h
    exact hstale h

/-- The weak toggle invariant that does hold of every reachable state. -/
def ToggleInv (s : InnerState) : Prop :=
  s.toggle_active = true → s.status = .recording ∨ s.status = .processing

/-- Every session transition preserves the weak toggle invariant. -/
lemma sessionStep_preserves_toggleInv {s t : InnerState}
    (h : ToggleInv s) (hs : SessionStep s t) : ToggleInv t := by
  cases hs with
  | press => exact fun ht => Or.inl (handle_press_strict _ ht)
  | release e => exact fun ht => Or.inl (handle_release_strict _ e ht)
  | start_begin hidle => exact fun _ => Or.inl rfl
  | start_model_missing hidle => intro ht; simp [reset_to_idle] at ht
  | stop_begin hrec => exact fun _ => Or.inr rfl
  | stop_reset => intro ht; simp [reset_to_idle] at ht
  | cancel hrec => intro ht; simp [reset_to_idle] at ht
  | error_reset => intro ht; simp [reset_to_idle] at ht
  | set_mode => exact fun ht => h ht

/-- The stale-toggle state produced by stopping a toggle-mode recording via
the external `stop_recording` command: start by hotkey, switch to toggle
mode with a quick tap, then let the external stop command move the status
to `Processing` — `toggle_active` stays set. -/
lemma reachable_stale_toggle : Reachable ⟨.processing, false, true, true⟩ := by
  have r0 : Reachable ⟨.idle, false, false, false⟩ := .init
  have r1 : Reachable ⟨.idle, true, true, false⟩ := by
    have h := Reachable.step r0 (SessionStep.press ⟨.idle, false, false, false⟩)
    rwa [show handle_press ⟨.idle, false, false, false⟩ = ⟨.idle, true, true, false⟩
      from by decide] at h
  have r2 : Reachable ⟨.recording, true, true, false⟩ :=
    Reachable.step r1 (SessionStep.start_begin _ rfl)
  have r3 : Reachable ⟨.recording, false, true, true⟩ := by
    have h := Reachable.step r2
      (SessionStep.release ⟨.recording, true, true, false⟩ 150)
    rwa [show handle_release ⟨.recording, true, true, false⟩ 150 =
      ⟨.recording, false, true, true⟩ from by decide] at h
  exact Reachable.step r3 (SessionStep.stop_begin _ rfl)

/-- C1 (counterexample): the invariant `toggle_active → status = Recording`
does not hold of every reachable session state: the `stop_recording`
command issued while toggle mode is active moves the status to `Processing`
without clearing `toggle_active` (the stale flag is only healed at the next
gesture by the cleanup in `handle_shortcut_event`). -/
theorem toggle_invariant_fails :
    Reachable ⟨.processing, false, true, true⟩ ∧
    (⟨.processing, false, true, true⟩ : InnerState).toggle_active = true ∧
    (⟨.processing, false, true, true⟩ : InnerState).status ≠ .recording :=
  ⟨reachable_stale_toggle, rfl, by decide⟩

/-- C1 (amended): every reachable session state satisfies the weakened
invariant `toggle_active → status ∈ {Recording, Processing}`, and the
strict invariant `toggle_active → status = Recording` is restored by every
hotkey gesture (press or release), the stale-toggle cleanup running first. -/
theorem toggle_invariant_amended :
    (∀ s : InnerState, Reachable s → s.toggle_active = true →
      s.status = .recording ∨ s.status = .processing) ∧
    (∀ s : InnerState, (handle_press s).toggle_active = true →
      (handle_press s).status = .recording) ∧
    (∀ (s : InnerState) (e : Nat), (handle_release s e).toggle_active = true →
      (handle_release s e).status = .recording) := by
  refine ⟨?_, handle_press_strict, handle_release_strict⟩
  intro s hs
  induction hs with
  | init => intro h; simp at h
  | step _ hstep ih => exact sessionStep_preserves_toggleInv ih hstep

/-- C1 (witness): the amended invariant applied to the concrete reachable
stale-toggle state. -/
theorem toggle_invariant_amended_witness :
    (⟨.processing, false, true, true⟩ : InnerState).status = .recording ∨
    (⟨.processing, false, true, true⟩ : InnerState).status = .processing :=
  toggle_invariant_amended.1 _ reachable_stale_toggle rfl

/-- C2: `resolve_shortcut_action` implements exactly the gesture rules the
specification states: on press — suppressed while the key is held, `Stop`
in toggle mode, `Start` from idle, otherwise nothing; on release while
recording outside toggle mode — `Stop` for a hold of at least 300 ms or an
unknown hold, `ToggleActivated` for a shorter hold; every other release
yields nothing. -/
theorem resolve_shortcut_action_spec (pressed is_idle is_recording
    toggle_shortcut_held toggle_active : Bool) (held_ms : Option Nat) :
    resolve_shortcut_action pressed is_idle is_recording toggle_shortcut_held
      toggle_active held_ms =
    resolveSpec pressed is_idle is_recording toggle_shortcut_held
      toggle_active held_ms := by
  unfold resolve_shortcut_action resolveSpec HOLD_THRESHOLD_MS
  cases pressed <;> cases is_idle <;> cases is_recording <;>
    cases toggle_shortcut_held <;> cases toggle_active <;> cases held_ms <;>
    simp_all <;>
    first
      | rfl
      | (rename_i ms
         rcases Nat.lt_or_ge ms 300 with h | h <;>
           simp [h, Nat.not_le.mpr h, Nat.not_lt.mpr h])

/-- Output length of `resample_linear` when downsampling by an exact
integer factor `k`. -/
lemma resample_linear_length_factor (x : List ℚ) (k r : Nat) (hx : x ≠ [])
    (hk : 1 < k) (hr : 0 < r) :
    (resample_linear x (k * r) r).length = x.length / k := by
  have hrQ : (r : ℚ) ≠ 0 := Nat.cast_ne_zero.mpr (Nat.pos_iff_ne_zero.mp hr)
  have hne : ¬(x = [] ∨ k * r = r) := by
    push_neg
    refine ⟨hx, ?_⟩
    have h1 : 1 * r < k * r := (Nat.mul_lt_mul_right hr).mpr hk
    omega
  rw [resample_linear, if_neg hne]
  have hratio : ((k * r : Nat) : ℚ) / ((r : Nat) : ℚ) = ((k : Nat) : ℚ) := by
    push_cast
    field_simp
  simp only [List.length_map, List.length_range]
  rw [hratio, Nat.floor_div_nat, Nat.floor_natCast]

/-- C4 (counterexample): for an odd-length input, downsampling `2r → r`
does not yield exactly half the element count: a 3-sample input at rates
`2 → 1` yields 1 output sample, and `2 * 1 ≠ 3`. -/
theorem resample_linear_half_fails :
    2 * (resample_linear [(0 : ℚ), 0, 0] (2 * 1) 1).length ≠
      ([(0 : ℚ), 0, 0] : List ℚ).length := by
  rw [resample_linear_length_factor [(0 : ℚ), 0, 0] 2 1 (by simp)
    (by omega) (by omega)]
  decide

/-- C4 (amended): `resample_linear` is the identity at equal rates, maps
empty input to empty output, and downsampling `2r → r` (resp. `3r → r`)
with `r > 0` yields `⌊n / 2⌋` (resp. `⌊n / 3⌋`) output samples — exactly
half (resp. a third) of the count whenever the length is divisible. -/
theorem resample_linear_counts :
    (∀ (x : List ℚ) (r : Nat), resample_linear x r r = x) ∧
    (∀ r₁ r₂ : Nat, resample_linear [] r₁ r₂ = []) ∧
    (∀ (x : List ℚ) (r : Nat), x ≠ [] → 0 < r →
      (resample_linear x (2 * r) r).length = x.length / 2 ∧
      (resample_linear x (3 * r) r).length = x.length / 3) := by
  refine ⟨?_, ?_, ?_⟩
  · intro x r
    simp [resample_linear]
  · intro r₁ r₂
    simp [resample_linear]
  · intro x r hx hr
    exact ⟨resample_linear_length_factor x 2 r hx (by omega) hr,
      resample_linear_length_factor x 3 r hx (by omega) hr⟩

/-- C4 (witness): the amended count law applied at a concrete two-sample
input with `r = 1`. -/
theorem resample_linear_counts_witness :
    (resample_linear [(1 : ℚ), 2] (2 * 1) 1).length =
      ([(1 : ℚ), 2] : List ℚ).length / 2 ∧
    (resample_linear [(1 : ℚ), 2] (3 * 1) 1).length =
      ([(1 : ℚ), 2] : List ℚ).length / 3 :=
  resample_linear_counts.2.2 [(1 : ℚ), 2] 1 (by simp) (by omega)

/-- A `position` miss means no element satisfies the predicate. -/
lemma position_eq_none_iff (p : List ℚ → Bool) (ws : List (List ℚ)) :
    position p ws = none ↔ ∀ w ∈ ws, p w = false := by
  induction ws with
  | nil => simp [position]
  | cons w ws ih =>
    cases hpw : p w with
    | true =>
      simp only [position]
      rw [hpw, if_pos rfl]
      constructor
      · intro h
        exact Option.noConfusion h
      · intro hall
        have hcontra := hall w (List.mem_cons_self w ws)
        rw [hpw] at hcontra
        exact Bool.noConfusion hcontra
    | false =>
      simp only [position]
      rw [hpw, if_neg Bool.false_ne_true]
      constructor
      · intro hmap
        have hnone : position p ws = none := by
          cases hpos : position p ws with
          | none => rfl
          | some k =>
            rw [hpos] at hmap
            exact Option.noConfusion hmap
        intro x hx
        rcases List.mem_cons.mp hx with rfl | hx2
        · exact hpw
        · exact (ih.mp hnone) x hx2
      · intro hall
        have hnone : position p ws = none :=
          ih.mpr fun x hx => hall x (List.mem_cons_of_mem _ hx)
        rw [hnone]
        rfl

/-- `position` finds exactly the first index satisfying the predicate. -/
lemma position_eq_some_iff (p : List ℚ → Bool) :
    ∀ (ws : List (List ℚ)) (i : Nat),
      position p ws = some i ↔
        (i < ws.length ∧ p (ws.getD i []) = true ∧
          ∀ k, k < i → p (ws.getD k []) = false) := by
  intro ws
  induction ws with
  | nil => intro i; simp [position]
  | cons w ws ih =>
    intro i
    cases hpw : p w with
    | true =>
      simp only [position]
      rw [hpw, if_pos rfl]
      constructor
      · rintro h0
        cases h0
        exact ⟨Nat.succ_pos _, by rw [List.getD_cons_zero]; exact hpw,
          fun k hk => absurd hk (Nat.not_lt_zero k)⟩
      · rintro ⟨-, -, hmin⟩
        cases i with
        | zero => rfl
        | succ i =>
          have h0 := hmin 0 (Nat.succ_pos i)
          rw [List.getD_cons_zero, hpw] at h0
          exact Bool.noConfusion h0
    | false =>
      simp only [position]
      rw [hpw, if_neg Bool.false_ne_true]
      cases i with
      | zero =>
        constructor
        · intro hmap
          have : False := by
            cases hpos : position p ws with
            | none => rw [hpos] at hmap; exact Option.noConfusion hmap
            | some k =>
              rw [hpos] at hmap
              simp at hmap
          exact this.elim
        · rintro ⟨-, h0, -⟩
          rw [List.getD_cons_zero, hpw] at h0
          exact absurd h0 Bool.false_ne_true
      | succ i =>
        have hmap : (position p ws).map (· + 1) = some (i + 1) ↔
            position p ws = some i := by
          cases hpos : position p ws with
          | none => simp
          | some k => simp
        rw [hmap, ih i]
        constructor
        · rintro ⟨hlt, hp, hmin⟩
          refine ⟨Nat.succ_lt_succ hlt, by simpa using hp, ?_⟩
          intro k hk
          cases k with
          | zero => rw [List.getD_cons_zero]; exact hpw
          | succ k => simpa using hmin k (Nat.lt_of_succ_lt_succ hk)
        · rintro ⟨hlt, hp, hmin⟩
          refine ⟨Nat.lt_of_succ_lt_succ hlt, by simpa using hp, ?_⟩
          intro k hk
          simpa using hmin (k + 1) (Nat.succ_lt_succ hk)

/-- `getD` on a reversed list, inside bounds. -/
lemma getD_reverse (ws : List (List ℚ)) (k : Nat) (hk : k < ws.length) :
    ws.reverse.getD k [] = ws.getD (ws.length - 1 - k) [] := by
  have hk1 : k < ws.reverse.length := by simpa using hk
  have hk2 : ws.length - 1 - k < ws.length := by omega
  rw [List.getD_eq_getElem _ _ hk1, List.getD_eq_getElem _ _ hk2,
    List.getElem_reverse]

/-- `rposition` finds exactly the last index satisfying the predicate. -/
lemma rposition_eq_some_iff (p : List ℚ → Bool) (ws : List (List ℚ)) (j : Nat) :
    rposition p ws = some j ↔
      (j < ws.length ∧ p (ws.getD j []) = true ∧
        ∀ k, j < k → k < ws.length → p (ws.getD k []) = false) := by
  unfold rposition
  cases hpos : position p ws.reverse with
  | none =>
    constructor
    · intro h
      exact Option.noConfusion h
    · rintro ⟨hj, hp, -⟩
      rw [position_eq_none_iff] at hpos
      have hmem : ws.getD j [] ∈ ws := by
        rw [List.getD_eq_getElem _ _ hj]
        exact List.getElem_mem hj
      rw [hpos _ (List.mem_reverse.mpr hmem)] at hp
      exact absurd hp Bool.false_ne_true
  | some k =>
    rw [position_eq_some_iff] at hpos
    obtain ⟨hk, hp, hmin⟩ := hpos
    have hklen : k < ws.length := by simpa using hk
    rw [getD_reverse ws k hklen] at hp
    rw [show Option.map (fun k => ws.length - 1 - k) (some k) =
      some (ws.length - 1 - k) from rfl, Option.some.injEq]
    constructor
    · rintro rfl
      refine ⟨by omega, hp, ?_⟩
      intro m hm1 hm2
      have hrev : p (ws.reverse.getD (ws.length - 1 - m) []) = false :=
        hmin _ (by omega)
      rwa [getD_reverse ws _ (by omega), show ws.length - 1 - (ws.length - 1 - m) = m
        from by omega] at hrev
    · rintro ⟨hj, hpj, hmax⟩
      rcases Nat.lt_trichotomy (ws.length - 1 - k) j with h1 | h1 | h1
      · have hrev : p (ws.reverse.getD (ws.length - 1 - j) []) = false :=
          hmin _ (by omega)
        rw [getD_reverse ws _ (by omega), show ws.length - 1 - (ws.length - 1 - j) = j
          from by omega] at hrev
        rw [hrev] at hpj
        exact absurd hpj Bool.false_ne_true
      · exact h1
      · rw [hmax _ h1 (by omega)] at hp
        exact absurd hp Bool.false_ne_true

/-- Structure of the fueled chunker: the chunks cover the input and
chunk `i` is the `WINDOW`-wide slice at offset `WINDOW * i`. -/
lemma chunks_go_spec :
    ∀ (fuel : Nat) (l : List ℚ), l.length ≤ fuel →
      l.length ≤ WINDOW * (chunks_go fuel l).length ∧
      ∀ i, i < (chunks_go fuel l).length →
        WINDOW * i < l.length ∧
        (chunks_go fuel l).getD i [] = (l.drop (WINDOW * i)).take WINDOW := by
  intro fuel
  induction fuel with
  | zero =>
    intro l hl
    have : l = [] := List.length_eq_zero.mp (Nat.le_zero.mp hl)
    subst this
    simp [chunks_go]
  | succ fuel ih =>
    intro l hl
    match l with
    | [] => simp [chunks_go]
    | x :: xs =>
      have hW : WINDOW = 480 := rfl
      have hcons : (x :: xs).length = xs.length + 1 := rfl
      have hlen : ((x :: xs).drop WINDOW).length ≤ fuel := by
        simp only [List.length_drop]
        omega
      obtain ⟨ihcover, ihidx⟩ := ih ((x :: xs).drop WINDOW) hlen
      simp only [chunks_go]
      constructor
      · simp only [List.length_cons]
        simp only [List.length_drop] at ihcover
        rw [Nat.mul_succ]
        omega
      · intro i hi
        cases i with
        | zero =>
          refine ⟨by simp, ?_⟩
          simp [List.getD_cons_zero]
        | succ i =>
          simp only [List.length_cons] at hi
          obtain ⟨hlt, heq⟩ := ihidx i (Nat.lt_of_succ_lt_succ hi)
          simp only [List.length_drop] at hlt
          refine ⟨by rw [Nat.mul_succ]; omega, ?_⟩
          simp only [List.getD_cons_succ, heq, List.drop_drop]
          rw [show WINDOW + WINDOW * i = WINDOW * (i + 1) from by ring]

/-- The chunks of a buffer cover it: `n ≤ 480 * #chunks`. -/
lemma chunks_cover (l : List ℚ) : l.length ≤ WINDOW * (chunks l).length :=
  (chunks_go_spec l.length l le_rfl).1

/-- Chunk `i` starts strictly inside the buffer. -/
lemma chunks_start_lt (l : List ℚ) (i : Nat) (hi : i < (chunks l).length) :
    WINDOW * i < l.length :=
  ((chunks_go_spec l.length l le_rfl).2 i hi).1

/-- Chunk `i` is the slice `l[480*i .. 480*i+480]`. -/
lemma chunks_getD (l : List ℚ) (i : Nat) (hi : i < (chunks l).length) :
    (chunks l).getD i [] = (l.drop (WINDOW * i)).take WINDOW :=
  ((chunks_go_spec l.length l le_rfl).2 i hi).2

/-- General shape of `trim_silence` when the first and last non-silent
windows are `i` and `j`: the output is the slice from the start of window
`i` to the end of window `j` plus the tail padding, clamped to the buffer
length. -/
lemma trim_silence_general (s : List ℚ) (i j : Nat)
    (hi : i < (chunks s).length)
    (hpi : is_silent ((chunks s).getD i []) (1/100) = false)
    (hmini : ∀ k, k < i → is_silent ((chunks s).getD k []) (1/100) = true)
    (hj : j < (chunks s).length)
    (hpj : is_silent ((chunks s).getD j []) (1/100) = false)
    (hmaxj : ∀ k, j < k → k < (chunks s).length →
      is_silent ((chunks s).getD k []) (1/100) = true) :
    trim_silence s (1/100) =
      (s.take (min ((j + 1) * WINDOW + TAIL_PADDING) s.length)).drop (i * WINDOW) := by
  have hpos : position (fun w => !(is_silent w (1/100))) (chunks s) = some i := by
    rw [position_eq_some_iff]
    refine ⟨hi, by rw [hpi]; rfl, ?_⟩
    intro k hk
    rw [hmini k hk]
    rfl
  have hrpos : rposition (fun w => !(is_silent w (1/100))) (chunks s) = some j := by
    rw [rposition_eq_some_iff]
    refine ⟨hj, by rw [hpj]; rfl, ?_⟩
    intro k h1 h2
    rw [hmaxj k h1 h2]
    rfl
  have hij : i ≤ j := by
    by_contra hij
    push_neg at hij
    have hsil := hmini j hij
    rw [hsil] at hpj
    exact Bool.noConfusion hpj
  have hstart : WINDOW * i < s.length := chunks_start_lt s i hi
  have hlt : i * WINDOW < min ((j + 1) * WINDOW + TAIL_PADDING) s.length := by
    have h1 : i * WINDOW ≤ j * WINDOW := Nat.mul_le_mul_right _ hij
    have h2 : j * WINDOW < (j + 1) * WINDOW + TAIL_PADDING := by
      have hexp : (j + 1) * WINDOW = j * WINDOW + WINDOW := by ring
      have hWpos : 0 < WINDOW := by decide
      omega
    rw [Nat.lt_min]
    exact ⟨lt_of_le_of_lt h1 h2, by rw [Nat.mul_comm] at hstart; exact hstart⟩
  simp only [trim_silence, hpos, hrpos]
  rw [if_neg (not_le.mpr hlt)]

/-- C6: `trim_silence` with 480-sample windows and RMS threshold `0.01`
trims an all-silent buffer to empty, keeps the length of a buffer with no
silent window unchanged, and in general returns the slice from the start of
the first non-silent window to the end of the last non-silent window plus
8000 samples of tail padding, clamped to the buffer length. -/
theorem trim_silence_spec :
    (∀ s : List ℚ, (∀ w ∈ chunks s, is_silent w (1/100) = true) →
      trim_silence s (1/100) = []) ∧
    (∀ s : List ℚ, (∀ w ∈ chunks s, is_silent w (1/100) = false) →
      (trim_silence s (1/100)).length = s.length) ∧
    (∀ (s : List ℚ) (i j : Nat),
      i < (chunks s).length →
      is_silent ((chunks s).getD i []) (1/100) = false →
      (∀ k, k < i → is_silent ((chunks s).getD k []) (1/100) = true) →
      j < (chunks s).length →
      is_silent ((chunks s).getD j []) (1/100) = false →
      (∀ k, j < k → k < (chunks s).length →
        is_silent ((chunks s).getD k []) (1/100) = true) →
      trim_silence s (1/100) =
        (s.take (min ((j + 1) * 480 + 8000) s.length)).drop (i * 480)) := by
  refine ⟨?_, ?_, ?_⟩
  · intro s hall
    have hnone : position (fun w => !(is_silent w (1/100))) (chunks s) = none := by
      rw [position_eq_none_iff]
      intro w hw
      rw [hall w hw]
      rfl
    simp only [trim_silence, hnone]
  · intro s hall
    by_cases hs : s = []
    · subst hs
      rfl
    · have hlen0 : 0 < s.length := List.length_pos.mpr hs
      have hcover := chunks_cover s
      have hch : 0 < (chunks s).length := by
        by_contra h
        push_neg at h
        have hz : (chunks s).length = 0 := by omega
        rw [hz, Nat.mul_zero] at hcover
        omega
      have h0 : is_silent ((chunks s).getD 0 []) (1/100) = false := by
        apply hall
        rw [List.getD_eq_getElem _ _ hch]
        exact List.getElem_mem hch
      have hjlt : (chunks s).length - 1 < (chunks s).length := by omega
      have hjs : is_silent ((chunks s).getD ((chunks s).length - 1) []) (1/100)
          = false := by
        apply hall
        rw [List.getD_eq_getElem _ _ hjlt]
        exact List.getElem_mem hjlt
      rw [trim_silence_general s 0 ((chunks s).length - 1) hch h0
        (fun k hk => absurd hk (Nat.not_lt_zero k)) hjlt hjs
        (fun k h1 h2 => absurd h2 (by omega))]
      have hmin : min (((chunks s).length - 1 + 1) * WINDOW + TAIL_PADDING)
          s.length = s.length := by
        have hm : (chunks s).length - 1 + 1 = (chunks s).length := by omega
        rw [hm]
        apply Nat.min_eq_right
        rw [Nat.mul_comm] at hcover
        omega
      rw [hmin]
      simp
  · intro s i j hi hpi hmini hj hpj hmaxj
    exact trim_silence_general s i j hi hpi hmini hj hpj hmaxj

/-- C6 (witness): the general slice law applied to a concrete two-sample
loud buffer, whose single window is non-silent. -/
theorem trim_silence_spec_witness :
    trim_silence [(1 : ℚ), 1] (1/100) =
      (([(1 : ℚ), 1].take
        (min ((0 + 1) * 480 + 8000) ([(1 : ℚ), 1] : List ℚ).length)).drop
        (0 * 480)) := by
  have hlen1 : (chunks [(1 : ℚ), 1]).length = 1 := rfl
  have hsil : is_silent ((chunks [(1 : ℚ), 1]).getD 0 []) (1/100) = false := by
    show is_silent [(1 : ℚ), 1] (1/100) = false
    norm_num [is_silent, sum_sq]
  exact trim_silence_spec.2.2 [(1 : ℚ), 1] 0 0 (by rw [hlen1]; omega) hsil
    (fun k hk => absurd hk (Nat.not_lt_zero k)) (by rw [hlen1]; omega) hsil
    (fun k hk1 hk2 => absurd hk2 (by rw [hlen1]; omega))

/-- C7: `format_text` maps each of the five literal spec examples to
exactly the stated output. -/
theorem format_text_literal_cases :
    format_text "i cant do this".data = "I can\x27t do this.".data ∧
    format_text "um I like it, like, a lot, you know,".data =
      "I like it, a lot.".data ∧
    format_text "the the the thing".data = "The thing.".data ∧
    format_text "I want to— actually let me fix that".data =
      "Actually let me fix that.".data ∧
    format_text "i... i... i... i\x27m actually ready".data =
      "I\x27m actually ready.".data :=
  ⟨by decide, by decide, by decide, by decide, by decide⟩

/-- C8 (counterexample): `format_text` is not idempotent.  The formatted
output of `"i like"` is `"I like."`; on a second pass the appended period
makes the final token `"like."` carry pause punctuation, so the
pause-gated filler rule deletes it, producing `"I."`. -/
theorem format_text_idempotent_fails :
    format_text (format_text "i like".data) ≠ format_text "i like".data := by
  decide

/-- C8 (amended): applying `format_text` a second time leaves the output
unchanged on each of the five literal spec examples (idempotence holds for
those, though not in general). -/
theorem format_text_idempotent_on_examples :
    format_text (format_text "i cant do this".data) =
      format_text "i cant do this".data ∧
    format_text (format_text "um I like it, like, a lot, you know,".data) =
      format_text "um I like it, like, a lot, you know,".data ∧
    format_text (format_text "the the the thing".data) =
      format_text "the the the thing".data ∧
    format_text (format_text "I want to— actually let me fix that".data) =
      format_text "I want to— actually let me fix that".data ∧
    format_text (format_text "i... i... i... i\x27m actually ready".data) =
      format_text "i... i... i... i\x27m actually ready".data :=
  ⟨by decide, by decide, by decide, by decide, by decide⟩

/-- The false-start stage as the claim words it: split at the last
occurrence of ANY of the three restart markers in the whole string (the
rightmost position at which an em-dash, en-dash or double hyphen occurs);
if either half is empty, or the keyword/8-word test fails, the text is
unchanged.  Written from the claim text, to be compared with the source
embedding. -/
def claim_false_start (input : Str) : Str :=
  let candidates := (["—".data, "–".data, "--".data].filterMap fun m =>
    (rfindPos input m).map fun i => (i, m))
  let best := candidates.foldl
    (fun acc c =>
      match acc with
      | none => some c
      | some b => if b.1 < c.1 then some c else some b)
    none
  match best with
  | none => input
  | some (idx, marker) =>
    let before := trim (input.take idx)
    let after := trim ((input.drop (idx + marker.length)).dropWhile isDash)
    if before = [] ∨ after = [] then input
    else if restart_keyword (after.map Char.toLower) ∨
        (split_whitespace before).length ≤ 8 then after
    else input

/-- C5 (counterexample): the source stage does not operate on the last
occurrence of a restart marker in the whole string — it tries the markers
in a fixed order (em-dash first) and uses the last occurrence of each kind.
On `"a — b -- c"` the last marker overall is the double hyphen, so the
claim predicts `"c"`, but the code splits at the em-dash and returns
`"b -- c"`. -/
theorem cleanup_false_start_last_marker_fails :
    cleanup_false_start "a — b -- c".data = "b -- c".data ∧
    claim_false_start "a — b -- c".data = "c".data ∧
    "b -- c".data ≠ "c".data :=
  ⟨by decide, by decide, by decide⟩

/-- C5 (amended): the stage tries the markers in the fixed priority order
em-dash, en-dash, double hyphen; for each it splits at the last occurrence
of that marker, accepts the split (returning `after`, with leading dashes
stripped and both halves trimmed) when both halves are non-empty and
`after` opens with a restart keyword or `before` has at most 8 words, and
otherwise falls through to the next marker; if no marker yields a split that is
accepted the text is unchanged. -/
theorem cleanup_false_start_amended (input : Str) :
    cleanup_false_start input =
      (((false_start_split input "—".data).orElse fun _ =>
        (false_start_split input "–".data).orElse fun _ =>
          false_start_split input "--".data).getD input) := by
  simp only [cleanup_false_start, cleanup_false_start_go]
  cases false_start_split input "—".data <;>
    cases false_start_split input "–".data <;>
      cases false_start_split input "--".data <;> rfl

/-- C5 (witness): the amended marker-priority law evaluated at the
counterexample input, where the em-dash split wins over the later double
hyphen. -/
theorem cleanup_false_start_amended_witness :
    cleanup_false_start "a — b -- c".data =
      (((false_start_split "a — b -- c".data "—".data).orElse fun _ =>
        (false_start_split "a — b -- c".data "–".data).orElse fun _ =>
          false_start_split "a — b -- c".data "--".data).getD
        "a — b -- c".data) :=
  cleanup_false_start_amended "a — b -- c".data

/-- Appending a period puts sentence-ending punctuation at the end. -/
lemma ends_with_sentence_end_append_dot (l : Str) :
    ends_with_sentence_end (l ++ ['.']) = true := by
  simp [ends_with_sentence_end]

/-- C3 (counterexample): a non-empty input can format to the empty string:
`"um"` is a filler, the cleanup removes it, and `format_text` returns `""`
without trailing punctuation. -/
theorem format_text_trailing_fails :
    "um".data ≠ ([] : Str) ∧ format_text "um".data = [] :=
  ⟨by decide, by decide⟩

/-- C3 (amended): `format_text` returns the empty string exactly when the
cleanup pipeline (`smart_cleanup`, trimmed) leaves nothing — which can
happen for non-empty inputs consisting only of fillers, punctuation or
whitespace — and whenever the cleaned text is non-empty the output ends in
`.`, `!`, or `?`. -/
theorem format_text_trailing_amended :
    (∀ s : Str, format_text s = [] ↔ trim (smart_cleanup s) = []) ∧
    (∀ s : Str, trim (smart_cleanup s) ≠ [] →
      ends_with_sentence_end (format_text s) = true) := by
  constructor
  · intro s
    simp only [format_text]
    by_cases h : trim (smart_cleanup s) = []
    · simp [h]
    · rw [if_neg h]
      constructor
      · intro hres
        exfalso
        split at hres
        · next hend =>
          rw [hres] at hend
          exact Bool.noConfusion hend
        · simp at hres
      · intro h2
        exact absurd h2 h
  · intro s h
    simp only [format_text]
    rw [if_neg h]
    split
    · next hend => exact hend
    · exact ends_with_sentence_end_append_dot _

/-- C3 (witness): the amended trailing-punctuation law applied to the
concrete input `"hi"`, whose cleanup is non-empty. -/
theorem format_text_trailing_amended_witness :
    ends_with_sentence_end (format_text "hi".data) = true :=
  format_text_trailing_amended.2 "hi".data (by decide)

/-- Folding push-one-element-at-a-time is `map`. -/
lemma foldl_push_eq_map {α β : Type} (f : α → β) :
    ∀ (l : List α) (acc : List β),
      l.foldl (fun acc x => acc ++ [f x]) acc = acc ++ l.map f := by
  intro l
  induction l with
  | nil => intro acc; simp
  | cons x xs ih =>
    intro acc
    simp only [List.foldl_cons, List.map_cons]
    rw [ih]
    simp

/-- C10: `apply_replacements` with an empty rule list returns the input
byte for byte; with a non-empty rule list it returns the whitespace-split
tokens of the input, each substituted, joined by single spaces —
so interior whitespace runs are normalized even when no rule matches, as
the concrete instance `"a  b"` with a non-matching rule shows. -/
theorem apply_replacements_spec :
    (∀ text : Str, apply_replacements text [] = text) ∧
    (∀ (text : Str) (rs : List ReplacementEntry), rs ≠ [] →
      apply_replacements text rs =
        join_space ((split_whitespace text).map (subst_word rs))) ∧
    apply_replacements "a  b".data [⟨"x".data, "y".data⟩] = "a b".data ∧
    ("a  b".data : Str) ≠ "a b".data := by
  refine ⟨?_, ?_, by decide, by decide⟩
  · intro text
    simp [apply_replacements]
  · intro text rs hrs
    have hne : rs.isEmpty = false := by
      cases rs with
      | nil => exact absurd rfl hrs
      | cons e es => rfl
    simp only [apply_replacements, hne, Bool.false_eq_true, if_false]
    rw [foldl_push_eq_map]
    simp

/-- C10 (witness): the map form of `apply_replacements` applied at a
concrete input and a concrete non-empty rule list. -/
theorem apply_replacements_spec_witness :
    apply_replacements "x  y".data [⟨"x".data, "z".data⟩] =
      join_space ((split_whitespace "x  y".data).map
        (subst_word [⟨"x".data, "z".data⟩])) :=
  apply_replacements_spec.2.1 "x  y".data [⟨"x".data, "z".data⟩] (by simp)

/-- `eq_ignore_ascii_case` holds exactly when the ASCII-lowercased
characters agree. -/
lemma eq_ignore_ascii_case_iff (a b : Str) :
    eq_ignore_ascii_case a b = true ↔
      a.map Char.toLower = b.map Char.toLower := by
  simp [eq_ignore_ascii_case]

/-- Every `from` entry of the contraction table is already lowercase. -/
lemma contraction_from_lower :
    ∀ p ∈ contraction_fixes, p.1.map Char.toLower = p.1 := by decide

/-- The `from` entries of the contraction table are pairwise distinct. -/
lemma contraction_from_nodup : (contraction_fixes.map Prod.fst).Nodup := by
  decide

/-- No lowercased `to` entry of the table equals any `from` entry (every
`to` contains an apostrophe, no `from` does). -/
lemma contraction_to_ne_from :
    ∀ p ∈ contraction_fixes, ∀ q ∈ contraction_fixes,
      p.2.map Char.toLower ≠ q.1 := by decide

/-- No `to` entry of the table ends in trailing punctuation. -/
lemma contraction_to_no_trail :
    ∀ p ∈ contraction_fixes, trimEndMatches isTrailPunct p.2 = p.2 := by decide

/-- Every `to` entry of the table is non-empty and whitespace-free. -/
lemma contraction_to_token :
    ∀ p ∈ contraction_fixes, p.2 ≠ [] ∧ ∀ c ∈ p.2, c.isWhitespace = false := by
  decide

/-- Folding the table over a word that every entry leaves unchanged. -/
lemma foldl_rww_id (tbl : List (Str × Str)) (w : Str)
    (h : ∀ p ∈ tbl, rww_word p.1 p.2 w = w) :
    tbl.foldl (fun acc pr => rww_word pr.1 pr.2 acc) w = w := by
  induction tbl with
  | nil => rfl
  | cons p tbl ih =>
    simp only [List.foldl_cons]
    rw [h p (List.mem_cons_self p tbl)]
    exact ih fun q hq => h q (List.mem_cons_of_mem p hq)

/-- `rww_word` is the identity on a word whose stripped form does not match
the entry. -/
lemma rww_word_no_match (f t w : Str)
    (h : eq_ignore_ascii_case (trimEndMatches isTrailPunct w) f = false) :
    rww_word f t w = w := by
  simp only [rww_word]
  rw [h, if_neg Bool.false_ne_true]

/-- The `were` entry never rewrites a matching word. -/
lemma rww_word_match_were (t w : Str)
    (h : eq_ignore_ascii_case (trimEndMatches isTrailPunct w) "were".data = true) :
    rww_word "were".data t w = w := by
  simp only [rww_word]
  rw [h, if_pos rfl]
  simp

/-- A non-`were` entry rewrites a matching word to its `to` spelling plus
the original trailing punctuation. -/
lemma rww_word_match (f t w : Str) (hf : f ≠ "were".data)
    (h : eq_ignore_ascii_case (trimEndMatches isTrailPunct w) f = true) :
    rww_word f t w = t ++ w.drop (trimEndMatches isTrailPunct w).length := by
  simp only [rww_word]
  rw [h, if_pos rfl, if_neg hf]

/-- A word cannot match two distinct lowercase entries. -/
lemma match_unique (w f g : Str)
    (hfl : f.map Char.toLower = f) (hgl : g.map Char.toLower = g)
    (hf : eq_ignore_ascii_case (trimEndMatches isTrailPunct w) f = true)
    (hg : eq_ignore_ascii_case (trimEndMatches isTrailPunct w) g = true) :
    f = g := by
  rw [eq_ignore_ascii_case_iff] at hf hg
  rw [← hfl, ← hgl, ← hf, ← hg]

/-- Dropping a satisfying prefix continues into the rest. -/
lemma dropWhile_append_all {p : Char → Bool} :
    ∀ {l1 : Str}, (∀ c ∈ l1, p c = true) → ∀ l2 : Str,
      (l1 ++ l2).dropWhile p = l2.dropWhile p := by
  intro l1
  induction l1 with
  | nil => intro _ l2; rfl
  | cons c l1 ih =>
    intro h l2
    rw [List.cons_append, List.dropWhile_cons,
      if_pos (h c (List.mem_cons_self c l1))]
    exact ih (fun x hx => h x (List.mem_cons_of_mem c hx)) l2

/-- A word with no trailing punctuation is a fixed point of the reversed
`dropWhile`. -/
lemma dropWhile_reverse_of_trimEnd (t : Str)
    (ht : trimEndMatches isTrailPunct t = t) :
    t.reverse.dropWhile isTrailPunct = t.reverse := by
  have h := congrArg List.reverse ht
  simp only [trimEndMatches, List.reverse_reverse] at h
  exact h

/-- Stripping trailing punctuation from `t ++ u` recovers `t` when `t` has
no trailing punctuation and `u` is all punctuation. -/
lemma trimEnd_append_trailing (t u : Str)
    (ht : trimEndMatches isTrailPunct t = t)
    (hu : ∀ c ∈ u, isTrailPunct c = true) :
    trimEndMatches isTrailPunct (t ++ u) = t := by
  unfold trimEndMatches
  rw [List.reverse_append,
    dropWhile_append_all (fun c hc => hu c (List.mem_reverse.mp hc)),
    dropWhile_reverse_of_trimEnd t ht, List.reverse_reverse]

/-- Every word is its stripped form followed by its trailing punctuation. -/
lemma trimEnd_decomp (w : Str) :
    w = trimEndMatches isTrailPunct w ++
      (w.reverse.takeWhile isTrailPunct).reverse := by
  conv_lhs => rw [← List.reverse_reverse w,
    ← List.takeWhile_append_dropWhile isTrailPunct w.reverse]
  rw [List.reverse_append]
  rfl

/-- The dropped suffix is the reversed `takeWhile` of the reverse. -/
lemma drop_trimEnd (w : Str) :
    w.drop (trimEndMatches isTrailPunct w).length =
      (w.reverse.takeWhile isTrailPunct).reverse := by
  have h := trimEnd_decomp w
  calc w.drop (trimEndMatches isTrailPunct w).length
      = (trimEndMatches isTrailPunct w ++
          (w.reverse.takeWhile isTrailPunct).reverse).drop
          (trimEndMatches isTrailPunct w).length := by rw [← h]
    _ = (w.reverse.takeWhile isTrailPunct).reverse := List.drop_left _ _

/-- The suffix removed by trailing-punctuation stripping is all
punctuation. -/
lemma trailing_all_punct (w : Str) :
    ∀ c ∈ w.drop (trimEndMatches isTrailPunct w).length,
      isTrailPunct c = true := by
  intro c hc
  rw [drop_trimEnd, List.mem_reverse] at hc
  exact List.mem_takeWhile_imp hc

/-- The whole contraction fold leaves a `were`-matching word unchanged. -/
lemma fix_contractions_word_were (w : Str)
    (h : eq_ignore_ascii_case (trimEndMatches isTrailPunct w) "were".data
      = true) :
    fix_contractions_word w = w := by
  apply foldl_rww_id
  intro p hp
  obtain ⟨f, t⟩ := p
  cases hmatch : eq_ignore_ascii_case (trimEndMatches isTrailPunct w) f with
  | false => exact rww_word_no_match f t w hmatch
  | true =>
    have hfw : f = "were".data :=
      match_unique w f "were".data (contraction_from_lower ⟨f, t⟩ hp)
        (by decide) hmatch h
    subst hfw
    exact rww_word_match_were t w h

/-- The whole contraction fold rewrites a word matching a non-`were` entry
to the `to` spelling of the entry plus the original trailing punctuation. -/
lemma fix_contractions_word_entry (f t : Str)
    (hmem : (f, t) ∈ contraction_fixes) (hfw : f ≠ "were".data) (w : Str)
    (hmatch : eq_ignore_ascii_case (trimEndMatches isTrailPunct w) f = true) :
    fix_contractions_word w =
      t ++ w.drop (trimEndMatches isTrailPunct w).length := by
  obtain ⟨pre, post, hsplit⟩ := List.append_of_mem hmem
  unfold fix_contractions_word
  rw [hsplit, List.foldl_append, List.foldl_cons]
  have hpre : pre.foldl (fun acc pr => rww_word pr.1 pr.2 acc) w = w := by
    apply foldl_rww_id
    intro p hp
    obtain ⟨g, u⟩ := p
    cases hm : eq_ignore_ascii_case (trimEndMatches isTrailPunct w) g with
    | false => exact rww_word_no_match g u w hm
    | true =>
      exfalso
      have hgmem : (g, u) ∈ contraction_fixes := by
        rw [hsplit]
        exact List.mem_append_left _ hp
      have hgf : g = f :=
        match_unique w g f (contraction_from_lower ⟨g, u⟩ hgmem)
          (contraction_from_lower ⟨f, t⟩ hmem) hm hmatch
      have hnd := contraction_from_nodup
      rw [hsplit, List.map_append, List.map_cons] at hnd
      have hd := (List.nodup_append.mp hnd).2.2
      have hfin : f ∈ pre.map Prod.fst := by
        rw [← hgf]
        exact List.mem_map_of_mem Prod.fst hp
      exact hd hfin (List.mem_cons_self _ _)
  rw [hpre, rww_word_match f t w hfw hmatch]
  apply foldl_rww_id
  intro q hq
  obtain ⟨g, u⟩ := q
  have hqmem : (g, u) ∈ contraction_fixes := by
    rw [hsplit]
    exact List.mem_append_right _ (List.mem_cons_of_mem _ hq)
  have htr : trimEndMatches isTrailPunct
      (t ++ w.drop (trimEndMatches isTrailPunct w).length) = t :=
    trimEnd_append_trailing t _ (contraction_to_no_trail ⟨f, t⟩ hmem)
      (trailing_all_punct w)
  apply rww_word_no_match
  cases hm : eq_ignore_ascii_case (trimEndMatches isTrailPunct
      (t ++ w.drop (trimEndMatches isTrailPunct w).length)) g with
  | false => rfl
  | true =>
    exfalso
    rw [eq_ignore_ascii_case_iff, htr,
      contraction_from_lower ⟨g, u⟩ hqmem] at hm
    exact contraction_to_ne_from ⟨f, t⟩ hmem ⟨g, u⟩ hqmem hm

/-- Tokens emitted by the `split_whitespace` worker are non-empty and free
of whitespace (given the same for the accumulator). -/
lemma split_whitespace_go_tokens :
    ∀ (s racc : Str), (∀ c ∈ racc, c.isWhitespace = false) →
      ∀ w ∈ split_whitespace_go racc s,
        w ≠ [] ∧ ∀ c ∈ w, c.isWhitespace = false := by
  intro s
  induction s with
  | nil =>
    intro racc hracc w hw
    simp only [split_whitespace_go] at hw
    split at hw
    · exact absurd hw (List.not_mem_nil w)
    · next hne =>
      rw [List.mem_singleton] at hw
      subst hw
      refine ⟨fun hrev => hne (by simpa using congrArg List.reverse hrev), ?_⟩
      intro c hc
      exact hracc c (List.mem_reverse.mp hc)
  | cons c s ih =>
    intro racc hracc w hw
    simp only [split_whitespace_go] at hw
    by_cases hc : c.isWhitespace = true
    · rw [if_pos hc] at hw
      split at hw
      · exact ih [] (by simp) w hw
      · next hne =>
        rcases List.mem_cons.mp hw with rfl | hw2
        · refine ⟨fun hrev => hne (by simpa using congrArg List.reverse hrev), ?_⟩
          intro x hx
          exact hracc x (List.mem_reverse.mp hx)
        · exact ih [] (by simp) w hw2
    · rw [if_neg hc] at hw
      refine ih (c :: racc) ?_ w hw
      intro x hx
      rcases List.mem_cons.mp hx with rfl | hx2
      · exact Bool.not_eq_true _ ▸ eq_false_of_ne_true hc
      · exact hracc x hx2

/-- Tokens of `split_whitespace` are non-empty and whitespace-free. -/
lemma split_whitespace_tokens (s : Str) :
    ∀ w ∈ split_whitespace s, w ≠ [] ∧ ∀ c ∈ w, c.isWhitespace = false :=
  split_whitespace_go_tokens s [] (by simp)

/-- The `split_whitespace` worker consumes a whitespace-free prefix into
its accumulator. -/
lemma split_whitespace_go_append (w : Str)
    (hw : ∀ c ∈ w, c.isWhitespace = false) :
    ∀ (racc rest : Str),
      split_whitespace_go racc (w ++ rest) =
        split_whitespace_go (w.reverse ++ racc) rest := by
  induction w with
  | nil => intro racc rest; simp
  | cons c w ih =>
    intro racc rest
    have hc : c.isWhitespace = false := hw c (List.mem_cons_self c w)
    simp only [List.cons_append, split_whitespace_go]
    rw [hc, if_neg Bool.false_ne_true]
    have h2 := ih (fun x hx => hw x (List.mem_cons_of_mem c hx)) (c :: racc) rest
    have h3 : (c :: w).reverse ++ racc = w.reverse ++ (c :: racc) := by simp
    rw [h3]
    exact h2

/-- Splitting a single-space join of well-formed tokens recovers the
tokens. -/
lemma split_join (ws : List Str)
    (h : ∀ w ∈ ws, w ≠ [] ∧ ∀ c ∈ w, c.isWhitespace = false) :
    split_whitespace (join_space ws) = ws := by
  induction ws with
  | nil => rfl
  | cons w ws ih =>
    obtain ⟨hwne, hwc⟩ := h w (List.mem_cons_self w ws)
    have hrevne : ¬(w.reverse = []) := fun hrev =>
      hwne (by simpa using congrArg List.reverse hrev)
    cases ws with
    | nil =>
      show split_whitespace w = [w]
      unfold split_whitespace
      have hgo := split_whitespace_go_append w hwc [] []
      rw [show w ++ ([] : Str) = w from by simp] at hgo
      rw [hgo]
      simp only [split_whitespace_go, List.append_nil]
      rw [if_neg hrevne, List.reverse_reverse]
    | cons w2 ws2 =>
      show split_whitespace (w ++ ' ' :: join_space (w2 :: ws2)) = w :: w2 :: ws2
      unfold split_whitespace
      rw [split_whitespace_go_append w hwc [] (' ' :: join_space (w2 :: ws2))]
      simp only [List.append_nil]
      rw [show split_whitespace_go w.reverse (' ' :: join_space (w2 :: ws2)) =
        w.reverse.reverse :: split_whitespace_go [] (join_space (w2 :: ws2))
        from by
          simp only [split_whitespace_go]
          rw [if_pos (by decide), if_neg hrevne]]
      rw [List.reverse_reverse]
      exact congrArg (w :: ·) (ih fun x hx => h x (List.mem_cons_of_mem w hx))

/-- `rww_word` maps well-formed tokens to well-formed tokens, given a
well-formed `to` spelling. -/
lemma rww_word_token_props (f t w : Str)
    (htne : t ≠ []) (htws : ∀ c ∈ t, c.isWhitespace = false)
    (hwne : w ≠ []) (hwws : ∀ c ∈ w, c.isWhitespace = false) :
    rww_word f t w ≠ [] ∧ ∀ c ∈ rww_word f t w, c.isWhitespace = false := by
  simp only [rww_word]
  split
  · split
    · exact ⟨hwne, hwws⟩
    · refine ⟨by simp [htne], ?_⟩
      intro c hc
      rcases List.mem_append.mp hc with hc1 | hc2
      · exact htws c hc1
      · exact hwws c (List.mem_of_mem_drop hc2)
  · exact ⟨hwne, hwws⟩

/-- The text-level fold of `replace_whole_word_ci` over a table acts
tokenwise once the text is a single-space join of well-formed tokens. -/
lemma foldl_rww_text (tbl : List (Str × Str))
    (hts : ∀ p ∈ tbl, p.2 ≠ [] ∧ ∀ c ∈ p.2, c.isWhitespace = false) :
    ∀ ws : List Str, (∀ w ∈ ws, w ≠ [] ∧ ∀ c ∈ w, c.isWhitespace = false) →
      tbl.foldl (fun acc pr => replace_whole_word_ci acc pr.1 pr.2)
          (join_space ws) =
        join_space (ws.map fun w =>
          tbl.foldl (fun acc pr => rww_word pr.1 pr.2 acc) w) := by
  induction tbl with
  | nil =>
    intro ws hws
    simp
  | cons p tbl ih =>
    intro ws hws
    simp only [List.foldl_cons]
    rw [replace_whole_word_ci, split_join ws hws]
    have hprops : ∀ w ∈ ws.map (rww_word p.1 p.2),
        w ≠ [] ∧ ∀ c ∈ w, c.isWhitespace = false := by
      intro w hw
      rw [List.mem_map] at hw
      obtain ⟨x, hx, rfl⟩ := hw
      obtain ⟨h1, h2⟩ := hws x hx
      obtain ⟨h3, h4⟩ := hts p (List.mem_cons_self p tbl)
      exact rww_word_token_props p.1 p.2 x h3 h4 h1 h2
    rw [ih (fun q hq => hts q (List.mem_cons_of_mem p hq)) _ hprops,
      List.map_map]
    rfl

/-- A non-empty table of well-formed entries folded over arbitrary text
acts tokenwise on the whitespace-split tokens of the text. -/
lemma foldl_rww_text_of_ne (tbl : List (Str × Str))
    (hts : ∀ p ∈ tbl, p.2 ≠ [] ∧ ∀ c ∈ p.2, c.isWhitespace = false)
    (htne : tbl ≠ []) (text : Str) :
    tbl.foldl (fun acc pr => replace_whole_word_ci acc pr.1 pr.2) text =
      join_space ((split_whitespace text).map fun w =>
        tbl.foldl (fun acc pr => rww_word pr.1 pr.2 acc) w) := by
  cases tbl with
  | nil => exact absurd rfl htne
  | cons p rest =>
    simp only [List.foldl_cons]
    rw [replace_whole_word_ci]
    have hprops : ∀ w ∈ (split_whitespace text).map (rww_word p.1 p.2),
        w ≠ [] ∧ ∀ c ∈ w, c.isWhitespace = false := by
      intro w hw
      rw [List.mem_map] at hw
      obtain ⟨x, hx, rfl⟩ := hw
      obtain ⟨h1, h2⟩ := split_whitespace_tokens text x hx
      obtain ⟨h3, h4⟩ := hts p (List.mem_cons_self p rest)
      exact rww_word_token_props p.1 p.2 x h3 h4 h1 h2
    rw [foldl_rww_text rest (fun q hq => hts q (List.mem_cons_of_mem p hq))
      _ hprops, List.map_map]
    rfl

/-- C9: in the contraction-restoration pass of `format_text`, the pass acts
tokenwise on the whitespace-split tokens; every token whose
punctuation-stripped form equals `were` in any case passes through the
whole pass unchanged; and every other table entry rewrites a whole-word
case-insensitive match to the `to` spelling of the entry plus the original
trailing punctuation. -/
theorem contraction_pass_were_excluded :
    (∀ text : Str, fix_contractions_text text =
      join_space ((split_whitespace text).map fix_contractions_word)) ∧
    (∀ w : Str,
      eq_ignore_ascii_case (trimEndMatches isTrailPunct w) "were".data = true →
      fix_contractions_word w = w) ∧
    (∀ f t : Str, (f, t) ∈ contraction_fixes → f ≠ "were".data →
      ∀ w : Str,
        eq_ignore_ascii_case (trimEndMatches isTrailPunct w) f = true →
        fix_contractions_word w =
          t ++ w.drop (trimEndMatches isTrailPunct w).length) := by
  refine ⟨?_, fix_contractions_word_were, fix_contractions_word_entry⟩
  intro text
  exact foldl_rww_text_of_ne contraction_fixes contraction_to_token
    (by decide) text

/-- C9 (witness): the word `"Were."` survives the contraction pass
unchanged, while `"Dont,"` is rewritten by the `dont` entry. -/
theorem contraction_pass_were_excluded_witness :
    fix_contractions_word "Were.".data = "Were.".data ∧
    fix_contractions_word "Dont,".data =
      "don\x27t".data ++
        "Dont,".data.drop (trimEndMatches isTrailPunct "Dont,".data).length :=
  ⟨contraction_pass_were_excluded.2.1 "Were.".data (by decide),
    contraction_pass_were_excluded.2.2 "dont".data "don\x27t".data
      (by decide) (by decide) "Dont,".data (by decide)⟩

end DravisFlow
